import Mathlib

/-!
# RedisPool: reply classification and connection-pool bookkeeping

A shallow embedding of `src/RedisPool.cc`.

* `RedisConnection::checkReply` and `RedisConnection::hgetall` are pure functions of the reply
  object that hiredis hands back, so the reply is a parameter of the embedded functions.
* `RedisPool` is embedded as a record of the members the pool operations read or write
  (`minConn_`, `maxConn_`, `connections_`) together with two ghost members: the number of
  connection objects the pool has constructed and the addresses at which a connection object
  exists.
* A `RedisConnection*` is embedded as the address it holds. `new` returns an address at which
  no object exists at that moment; it may be the address of an object that was deleted before.
  An `Allocator` is a parameter of every operation that calls `new`.
* What the server does is a parameter: `connectOk k` tells whether `connect()` of the `k`-th
  connection the pool constructs returns or throws, `ping c` is the answer of `c->ping()` in a
  sweep pass.
* An operation whose C++ behaviour is undefined (`ping()` on a deleted connection, an iterator
  into an erased list node) has the outcome `none`.
* The mutex makes every pool operation atomic, so each operation is a function on pool states;
  a call of `getConnection` that reaches `notEmpty_.wait()` is reported as `Acquire.waiting`,
  and concurrent calls are a sequence of calls.
* `int` members are embedded as `Int`: `minConn_` is only ever incremented while it is below
  `maxConn_`, so no operation can overflow.
-/

namespace RedisClient

/-! ## hiredis replies -/

/-- Reply kind `REDIS_REPLY_STRING` of hiredis. -/
def REDIS_REPLY_STRING : Int := 1
/-- Reply kind `REDIS_REPLY_ARRAY` of hiredis. -/
def REDIS_REPLY_ARRAY : Int := 2
/-- Reply kind `REDIS_REPLY_INTEGER` of hiredis. -/
def REDIS_REPLY_INTEGER : Int := 3
/-- Reply kind `REDIS_REPLY_NIL` of hiredis. -/
def REDIS_REPLY_NIL : Int := 4
/-- Reply kind `REDIS_REPLY_STATUS` of hiredis. -/
def REDIS_REPLY_STATUS : Int := 5
/-- Reply kind `REDIS_REPLY_ERROR` of hiredis. -/
def REDIS_REPLY_ERROR : Int := 6

/-- The `redisReply` object of hiredis: the kind `type`, the value `integer`, the payload `str`
(its `len` bytes) and the sub-replies `element` (`elements` of them). -/
inductive redisReply where
  | mk (type : Int) (integer : Int) (str : String) (element : List redisReply)

/-- Member `type` of a reply. -/
def redisReply.type : redisReply → Int
  | .mk t _ _ _ => t

/-- Member `integer` of a reply. -/
def redisReply.integer : redisReply → Int
  | .mk _ i _ _ => i

/-- Member `str` of a reply, `len` bytes long. -/
def redisReply.str : redisReply → String
  | .mk _ _ s _ => s

/-- Member `element` of a reply, an array of `elements` sub-replies. -/
def redisReply.element : redisReply → List redisReply
  | .mk _ _ _ e => e

/-- Member `elements` of a reply: the number of sub-replies. -/
def redisReply.elements (r : redisReply) : Nat := r.element.length

/-! ## `strcasecmp` -/

/-- The C function `tolower` in the "C" locale, on character codes. -/
def tolower (c : Nat) : Nat := if 65 ≤ c ∧ c ≤ 90 then c + 32 else c

/-- The byte a `char*` points at: the code of the first character, or the terminating NUL when
the buffer holds no further character. -/
def byteAt : List Char → Nat
  | [] => 0
  | c :: _ => c.toNat

/-- The C function `strcasecmp`: walks both strings, compares the lower-cased bytes and stops at
the first difference or at a NUL byte of the first string; the result is the difference of the
two bytes it stopped on. -/
def strcasecmp : List Char → List Char → Int
  | [], s2 => (tolower 0 : Int) - (tolower (byteAt s2) : Int)
  | c :: s1, s2 =>
    if tolower c.toNat = 0 ∨ tolower c.toNat ≠ tolower (byteAt s2) then
      (tolower c.toNat : Int) - (tolower (byteAt s2) : Int)
    else strcasecmp s1 s2.tail

/-- The characters of a buffer in front of its first NUL byte. -/
def upToNul (l : List Char) : List Char := l.takeWhile (fun c => c.toNat ≠ 0)

/-- The text a `char*` denotes: the characters in front of the first NUL byte. -/
def cText (s : String) : String := String.mk (upToNul s.toList)

/-! ## `RedisConnection::checkReply` -/

/-- The function `RedisConnection::checkReply`; `none` is the NULL reply. -/
def checkReply (reply : Option redisReply) : Bool :=
  match reply with
  | none => false
  | some r =>
    if r.type = REDIS_REPLY_STRING then true
    else if r.type = REDIS_REPLY_ARRAY then true
    else if r.type = REDIS_REPLY_INTEGER then true
    else if r.type = REDIS_REPLY_NIL then false
    else if r.type = REDIS_REPLY_STATUS then
      (if strcasecmp r.str.toList "OK".toList = 0 then true else false)
    else if r.type = REDIS_REPLY_ERROR then false
    else false

/-! ## `RedisConnection::hgetall` -/

/-- A `std::map<std::string, std::string>` as the list of its entries; no key occurs twice in a
map built by `mapInsert`. The iteration order of the map is not modelled. -/
abbrev StdMap := List (String × String)

/-- Lookup in a map: `std::map::find`. -/
def mapFind (m : StdMap) (key : String) : Option String := m.lookup key

/-- The member `std::map::insert(pair)`: the entry is added only when the key is absent. -/
def mapInsert (m : StdMap) (kv : String × String) : StdMap :=
  match mapFind m kv.1 with
  | some _ => m
  | none => m ++ [kv]

/-- The `for` loop of `hgetall` over an array with an even number of elements: each turn reads
`element[i]` and `element[i+1]`, inserts the pair and advances by two. -/
def insertPairs : List redisReply → StdMap → StdMap
  | field :: value :: rest, result => insertPairs rest (mapInsert result (field.str, value.str))
  | _, result => result

/-- The `RedisException` thrown by a command operation. -/
inductive RedisException where
  | commandFailed
deriving DecidableEq, Repr

/-- The function `RedisConnection::hgetall`: `reply` is what `redisCommand` returned for
`HGETALL key`, `result` is the caller's map; the outcome is the exception thrown or the return
value together with the caller's map afterwards. For a NULL reply the outcome is undefined
(`none`): `PREPARE_REDIS_EXCEPTION` reads `reply->str` before the exception is built. -/
def hgetall (reply : Option redisReply) (result : StdMap) :
    Option (Except RedisException (Bool × StdMap)) :=
  match reply with
  | none => none
  | some r =>
    if checkReply (some r) = false then some (.error .commandFailed)
    else if r.type = REDIS_REPLY_ARRAY ∧ r.elements % 2 = 0 then
      some (.ok (true, insertPairs r.element result))
    else some (.ok (true, result))

/-- The reply to `HGETALL` after two `hset` calls with the fields `f1` and `f2`. -/
def replyTwoFields : redisReply :=
  .mk REDIS_REPLY_ARRAY 0 ""
    [.mk REDIS_REPLY_STRING 0 "f1" [], .mk REDIS_REPLY_STRING 0 "v1" [],
     .mk REDIS_REPLY_STRING 0 "f2" [], .mk REDIS_REPLY_STRING 0 "v2" []]

/-! ## `RedisPool` -/

/-- A `RedisConnection*`: the address the pointer holds. -/
abbrev Conn := Nat

/-- The allocator behind `new RedisConnection(this)`: `addr k live` is the address of the `k`-th
connection object the pool constructs when connection objects exist at the addresses `live`. It
is never the address of an object that exists, but it may be an address that was freed. -/
structure Allocator where
  addr : Nat → List Conn → Conn
  fresh : ∀ (k : Nat) (live : List Conn), addr k live ∉ live

/-- An allocator that hands out the address above the highest one in use, so that the address
of the object deleted last is handed out again. -/
def reusingAllocator : Allocator where
  addr := fun _ live => live.foldr max 0 + 1
  fresh := by
    intro _ live h
    have hle : ∀ (l : List Nat) (x : Nat), x ∈ l → x ≤ l.foldr max 0 := by
      intro l
      induction l with
      | nil => intro x hx; cases hx
      | cons y l ih =>
        intro x hx
        rcases List.mem_cons.1 hx with rfl | hx
        · exact Nat.le_max_left _ _
        · exact Nat.le_trans (ih x hx) (Nat.le_max_right _ _)
    exact Nat.not_succ_le_self _ (hle live _ h)

/-- An allocator that never hands out an address twice as long as it is the only source of
connection objects: the address is above the number of objects constructed so far and above
every address in use. -/
def bumpAllocator : Allocator where
  addr := fun k live => max k (live.foldr max 0) + 1
  fresh := by
    intro k live h
    have hle : ∀ (l : List Nat) (x : Nat), x ∈ l → x ≤ l.foldr max 0 := by
      intro l
      induction l with
      | nil => intro x hx; cases hx
      | cons y l ih =>
        intro x hx
        rcases List.mem_cons.1 hx with rfl | hx
        · exact Nat.le_max_left _ _
        · exact Nat.le_trans (ih x hx) (Nat.le_max_right _ _)
    exact Nat.not_succ_le_self _
      (Nat.le_trans (hle live _ h) (Nat.le_max_right k (live.foldr max 0)))

/-- The members of `RedisPool` that the pool operations use. `constructed` and `live` are ghost
members: `constructed` counts the `new RedisConnection(this)` calls of the pool, `live` are the
addresses at which a `RedisConnection` object exists. A pointer whose address is not in `live`
dangles. Host, port, database number and name play no part in the bookkeeping. -/
structure RedisPool where
  minConn_ : Int
  maxConn_ : Int
  connections_ : List Conn
  constructed : Nat
  live : List Conn
deriving DecidableEq, Repr

/-- The constructor `RedisPool::RedisPool`: an empty `connections_` list. -/
def RedisPool.ctor (minConn maxConn : Int) : RedisPool :=
  { minConn_ := minConn, maxConn_ := maxConn, connections_ := [], constructed := 0, live := [] }

/-- The expression `new RedisConnection(this)`: the address of the new object and the pool
afterwards. -/
def newConnection (alloc : Allocator) (s : RedisPool) : Conn × RedisPool :=
  (alloc.addr s.constructed s.live,
    { s with constructed := s.constructed + 1,
             live := alloc.addr s.constructed s.live :: s.live })

/-- The statement `delete conn`: no object exists at the address any more. -/
def deleteConnection (s : RedisPool) (conn : Conn) : RedisPool :=
  { s with live := s.live.filter (fun x => x ≠ conn) }

/-- The body of the `for` loop of `RedisPool::init`, run `n` times. `connectOk k` tells whether
`connect()` of the `k`-th connection the pool constructs returns (`true`) or throws a
`RedisException` (`false`). The local pointer `conn` is `some _` after `new`; `delete conn`
leaves the pointer value as it is. -/
def initLoop (alloc : Allocator) (connectOk : Nat → Bool) : Nat → RedisPool → RedisPool
  | 0, s => s
  | n + 1, s =>
    let conn : Option Conn := some (newConnection alloc s).1
    let s1 := (newConnection alloc s).2
    let s2 := if connectOk s.constructed then s1
              else deleteConnection s1 (newConnection alloc s).1
    let s3 := match conn with
              | some c => { s2 with connections_ := s2.connections_ ++ [c] }
              | none => s2
    initLoop alloc connectOk n s3

/-- The function `RedisPool::init`: the loop runs for `i = 0 .. minConn_ - 1`. The sweep thread
it starts is embedded as the separate operation `serverCronPass`. -/
def init (alloc : Allocator) (connectOk : Nat → Bool) (s : RedisPool) : RedisPool :=
  initLoop alloc connectOk s.minConn_.toNat s

/-- How a call of `getConnection` leaves the pool. -/
inductive Acquire where
  /-- The call reached `return pConn`. -/
  | returned (pConn : Conn) (pool : RedisPool)
  /-- The caller is suspended in `notEmpty_.wait()`. -/
  | waiting (pool : RedisPool)
  /-- The `RedisException` of `connect()` was rethrown to the caller. -/
  | threw (pool : RedisPool)
  /-- The loop budget of the embedding ran out. -/
  | outOfFuel
deriving DecidableEq, Repr

/-- The `while (connections_.empty())` loop of `RedisPool::getConnection` followed by
`front()` / `pop_front()`; `fuel` bounds the number of loop tests. -/
def getConnectionLoop (alloc : Allocator) (connectOk : Nat → Bool) : Nat → RedisPool → Acquire
  | 0, _ => .outOfFuel
  | fuel + 1, s =>
    match s.connections_ with
    | [] =>
      if s.minConn_ ≥ s.maxConn_ then .waiting s
      else
        let conn := (newConnection alloc s).1
        let s1 := (newConnection alloc s).2
        if connectOk s.constructed then
          getConnectionLoop alloc connectOk fuel
            { s1 with connections_ := s1.connections_ ++ [conn], minConn_ := s1.minConn_ + 1 }
        else .threw (deleteConnection s1 conn)
    | pConn :: rest => .returned pConn { s with connections_ := rest }

/-- The function `RedisPool::getConnection`. Two loop tests are always enough: after
`push_back` the list is not empty (see `getConnectionLoop_fuel`). -/
def getConnection (alloc : Allocator) (connectOk : Nat → Bool) (s : RedisPool) : Acquire :=
  getConnectionLoop alloc connectOk 2 s

/-- The search loop of `RedisPool::freeConnection`: `true` when the iterator stops on an element
equal to `conn`, `false` when it reaches `end()`. -/
def findConn (conn : Conn) : List Conn → Bool
  | [] => false
  | x :: rest => if x = conn then true else findConn conn rest

/-- The function `RedisPool::freeConnection`; `notEmpty_.notify()` changes no member. -/
def freeConnection (s : RedisPool) (conn : Conn) : RedisPool :=
  if findConn conn s.connections_ = false then
    { s with connections_ := s.connections_ ++ [conn] }
  else s

/-- The `for` loop of one pass of `RedisPool::serverCron`. The first list holds the addresses
at which a connection object exists, `visited` are the nodes in front of the iterator `it`, the
last list starts at `it`; `ping c` is the answer of `c->ping()`. The result is the list and the
addresses in use after the loop.

* `(*it)->ping()` on a pointer that dangles is undefined: `none`.
* `delete *it` frees the address.
* `connections_.remove(*it++)` first advances `it` and then erases every node holding the value
  of the old node; when the node `it` has moved to is one of them the iterator dangles and the
  pass has no defined outcome: `none`. -/
def sweepLoop (ping : Conn → Bool) :
    List Conn → List Conn → List Conn → Option (List Conn × List Conn)
  | live, visited, [] => some (visited, live)
  | live, visited, c :: rest =>
    if c ∉ live then none
    else if ping c = false then
      if rest.head? = some c then none
      else sweepLoop ping (live.filter (fun x => x ≠ c)) (visited.filter (fun x => x ≠ c))
             (rest.filter (fun x => x ≠ c))
    else sweepLoop ping live (visited ++ [c]) rest
termination_by _ _ rest => rest.length
decreasing_by
  · simp only [List.length_cons]
    exact Nat.lt_succ_of_le (List.length_filter_le _ _)
  · simp

/-- One pass of the loop body of `RedisPool::serverCron` (after the sleep). -/
def serverCronPass (ping : Conn → Bool) (s : RedisPool) : Option RedisPool :=
  match sweepLoop ping s.live [] s.connections_ with
  | none => none
  | some (conns, live) => some { s with connections_ := conns, live := live }

/-- A run of `n` calls of `getConnection` with no release in between: the connections handed
out, in order, and the pool afterwards; `none` when one of the calls does not return. -/
def acquireMany (alloc : Allocator) (connectOk : Nat → Bool) :
    Nat → RedisPool → Option (List Conn × RedisPool)
  | 0, s => some ([], s)
  | n + 1, s =>
    match getConnection alloc connectOk s with
    | .returned c s' =>
      match acquireMany alloc connectOk n s' with
      | some (cs, t) => some (c :: cs, t)
      | none => none
    | _ => none

/-- The `ping()` answers of a sweep pass in which only the connections `1` and `4` are alive. -/
def pingEnds : Conn → Bool := fun c => c == 1 || c == 4

/-! ## Reachable pool states -/

/-- The pool states reachable from `init()` together with the connections that callers hold:
`getConnection` hands a connection out, `freeConnection` is called on a connection that is
checked out, a sweep pass with a defined outcome runs with any answers to `ping()`. A
`getConnection` that waits leaves the state as it is. Every allocator and every pattern of
`connect()` outcomes is admitted. -/
inductive Reachable (minConn maxConn : Int) : RedisPool → List Conn → Prop
  | init (alloc : Allocator) (connectOk : Nat → Bool) :
      Reachable minConn maxConn (init alloc connectOk (RedisPool.ctor minConn maxConn)) []
  | acquire {s : RedisPool} {out : List Conn} (alloc : Allocator) (connectOk : Nat → Bool)
      (c : Conn) (s' : RedisPool) :
      Reachable minConn maxConn s out → getConnection alloc connectOk s = .returned c s' →
      Reachable minConn maxConn s' (c :: out)
  | acquireThrew {s : RedisPool} {out : List Conn} (alloc : Allocator)
      (connectOk : Nat → Bool) (s' : RedisPool) :
      Reachable minConn maxConn s out → getConnection alloc connectOk s = .threw s' →
      Reachable minConn maxConn s' out
  | release {s : RedisPool} {out : List Conn} (c : Conn) :
      Reachable minConn maxConn s out → c ∈ out →
      Reachable minConn maxConn (freeConnection s c) (out.erase c)
  | sweep {s : RedisPool} {out : List Conn} (ping : Conn → Bool) (s' : RedisPool) :
      Reachable minConn maxConn s out → serverCronPass ping s = some s' →
      Reachable minConn maxConn s' out

/-- The pool states reachable from an `init()` whose every `connect()` succeeded when callers
release connections that exist, checked out or not, as often as they like. `construct` is a
connection object constructed outside the pool's own operations (for instance by another
pool). -/
inductive ReachableLive (minConn maxConn : Int) : RedisPool → Prop
  | init (alloc : Allocator) (connectOk : Nat → Bool) :
      (∀ k, k < minConn.toNat → connectOk k = true) →
      ReachableLive minConn maxConn (init alloc connectOk (RedisPool.ctor minConn maxConn))
  | acquire {s : RedisPool} (alloc : Allocator) (connectOk : Nat → Bool) (c : Conn)
      (s' : RedisPool) :
      ReachableLive minConn maxConn s → getConnection alloc connectOk s = .returned c s' →
      ReachableLive minConn maxConn s'
  | acquireThrew {s : RedisPool} (alloc : Allocator) (connectOk : Nat → Bool)
      (s' : RedisPool) :
      ReachableLive minConn maxConn s → getConnection alloc connectOk s = .threw s' →
      ReachableLive minConn maxConn s'
  | release {s : RedisPool} (c : Conn) :
      ReachableLive minConn maxConn s → c ∈ s.live →
      ReachableLive minConn maxConn (freeConnection s c)
  | construct {s : RedisPool} (a : Conn) :
      ReachableLive minConn maxConn s → a ∉ s.live →
      ReachableLive minConn maxConn { s with live := a :: s.live }
  | sweep {s : RedisPool} (ping : Conn → Bool) (s' : RedisPool) :
      ReachableLive minConn maxConn s → serverCronPass ping s = some s' →
      ReachableLive minConn maxConn s'

/-- The pool states that follow `s` while the caller of a `getConnection` keeps the connection
`c`: any pool operation except a `freeConnection(c)`; the connections released exist. -/
inductive WhileHeld (c : Conn) (s : RedisPool) : RedisPool → Prop
  | start : WhileHeld c s s
  | acquire {t : RedisPool} (alloc : Allocator) (connectOk : Nat → Bool) (d : Conn)
      (t' : RedisPool) :
      WhileHeld c s t → getConnection alloc connectOk t = .returned d t' → WhileHeld c s t'
  | acquireThrew {t : RedisPool} (alloc : Allocator) (connectOk : Nat → Bool)
      (t' : RedisPool) :
      WhileHeld c s t → getConnection alloc connectOk t = .threw t' → WhileHeld c s t'
  | release {t : RedisPool} (d : Conn) :
      WhileHeld c s t → d ≠ c → d ∈ t.live → WhileHeld c s (freeConnection t d)
  | construct {t : RedisPool} (a : Conn) :
      WhileHeld c s t → a ∉ t.live → WhileHeld c s { t with live := a :: t.live }
  | sweep {t : RedisPool} (ping : Conn → Bool) (t' : RedisPool) :
      WhileHeld c s t → serverCronPass ping t = some t' → WhileHeld c s t'

/-! ## Reply classification -/

theorem tolower_eq_zero (c : Nat) : tolower c = 0 ↔ c = 0 := by
  unfold tolower; split <;> omega

theorem tolower_eq_o (c : Nat) : tolower c = 111 ↔ c = 79 ∨ c = 111 := by
  unfold tolower; split <;> omega

theorem tolower_eq_k (c : Nat) : tolower c = 107 ↔ c = 75 ∨ c = 107 := by
  unfold tolower; split <;> omega

theorem char_eq_of_toNat (c : Char) (n : Nat) (h : c.toNat = n) : c = Char.ofNat n := by
  rw [← h, Char.ofNat_toNat]

theorem upToNul_nil : upToNul [] = [] := rfl

theorem upToNul_cons_zero (c : Char) (l : List Char) (h : c.toNat = 0) :
    upToNul (c :: l) = [] := by
  simp [upToNul, List.takeWhile, h]

theorem upToNul_cons_ne (c : Char) (l : List Char) (h : c.toNat ≠ 0) :
    upToNul (c :: l) = c :: upToNul l := by
  simp [upToNul, List.takeWhile, h]

/-- A call of `strcasecmp` against a pattern without NUL bytes returns `0` exactly when the text
in front of the first NUL has the same lower-cased bytes as the pattern. -/
theorem strcasecmp_eq_zero_iff (l : List Char) :
    ∀ pat : List Char, (∀ p ∈ pat, p.toNat ≠ 0) →
      (strcasecmp l pat = 0 ↔
        (upToNul l).map (fun c => tolower c.toNat) = pat.map (fun c => tolower c.toNat)) := by
  have hnil : ∀ pat : List Char, (∀ p ∈ pat, p.toNat ≠ 0) →
      ((tolower 0 : Int) - (tolower (byteAt pat) : Int) = 0 ↔ pat = []) := by
    intro pat hpat
    cases pat with
    | nil => simp [byteAt]
    | cons p ps =>
      have hp : tolower p.toNat ≠ 0 := fun h => hpat p (by simp) ((tolower_eq_zero _).1 h)
      have h0 : tolower 0 = 0 := by decide
      simp only [byteAt, h0]
      constructor
      · intro h; exfalso; apply hp; omega
      · intro h; cases h
  induction l with
  | nil =>
    intro pat hpat
    rw [strcasecmp, hnil pat hpat, upToNul_nil]
    cases pat <;> simp
  | cons c l ih =>
    intro pat hpat
    by_cases h0 : c.toNat = 0
    · have ht : tolower c.toNat = 0 := (tolower_eq_zero _).2 h0
      have ht0 : tolower 0 = 0 := by decide
      rw [strcasecmp, if_pos (Or.inl ht), upToNul_cons_zero c l h0, ht, ← ht0, hnil pat hpat]
      cases pat <;> simp
    · have ht : tolower c.toNat ≠ 0 := fun h => h0 ((tolower_eq_zero _).1 h)
      rw [upToNul_cons_ne c l h0]
      cases pat with
      | nil =>
        have hb : tolower (byteAt []) = 0 := by decide
        rw [strcasecmp, if_pos (Or.inr (by rw [hb]; exact ht)), hb]
        simp only [List.map_cons, List.map_nil]
        constructor
        · intro h; exfalso; apply ht; omega
        · intro h; cases h
      | cons p ps =>
        have hps : ∀ q ∈ ps, q.toNat ≠ 0 := fun q hq => hpat q (by simp [hq])
        by_cases heq : tolower c.toNat = tolower p.toNat
        · rw [strcasecmp, if_neg (by simp only [byteAt, not_or, not_not]; exact ⟨ht, heq⟩),
            List.tail_cons, ih ps hps]
          simp [heq]
        · rw [strcasecmp, if_pos (Or.inr (by simpa [byteAt] using heq))]
          simp only [byteAt, List.map_cons, List.cons.injEq]
          constructor
          · intro h; exfalso; apply heq; omega
          · intro h; exact absurd h.1 heq

/-- The four spellings of `OK` are exactly the C strings that `strcasecmp` equates with
`"OK"`. -/
theorem strcasecmp_OK (s : String) :
    strcasecmp s.toList "OK".toList = 0 ↔ cText s ∈ ["OK", "Ok", "oK", "ok"] := by
  have hpat : ∀ p ∈ "OK".toList, p.toNat ≠ 0 := by decide
  rw [strcasecmp_eq_zero_iff s.toList "OK".toList hpat]
  have hc : cText s = String.mk (upToNul s.toList) := rfl
  rw [hc]
  generalize upToNul s.toList = t
  have hmap : List.map (fun c : Char => tolower c.toNat) "OK".toList = [111, 107] := by decide
  rw [hmap]
  constructor
  · intro h
    have hlen : t.length = 2 := by simpa using congrArg List.length h
    obtain ⟨a, b, rfl⟩ := List.length_eq_two.1 hlen
    simp only [List.map_cons, List.map_nil, List.cons.injEq, and_true] at h
    obtain ⟨ha, hb⟩ := h
    rcases (tolower_eq_o _).1 ha with ha | ha <;> rcases (tolower_eq_k _).1 hb with hb | hb <;>
      (rw [char_eq_of_toNat a _ ha, char_eq_of_toNat b _ hb]; decide)
  · intro h
    simp only [List.mem_cons, List.mem_singleton, List.not_mem_nil, or_false] at h
    rcases h with h | h | h | h <;>
      (have h2 := congrArg String.toList h; simp only [String.toList] at h2; subst h2; decide)

/-- C1: `checkReply` returns `true` exactly when the reply is present and its kind is string,
array or integer, or its kind is status and its text is `OK` in any letter case; so it returns
`false` for a NULL reply, a nil reply, an error reply, a status with another text and every
other kind. An integer reply `0` and the status `ok` classify as success. -/
theorem checkReply_classification (reply : Option redisReply) :
    (checkReply reply = true ↔
      ∃ r, reply = some r ∧
        (r.type = REDIS_REPLY_STRING ∨ r.type = REDIS_REPLY_ARRAY ∨
          r.type = REDIS_REPLY_INTEGER ∨
          (r.type = REDIS_REPLY_STATUS ∧ cText r.str ∈ ["OK", "Ok", "oK", "ok"])))
    ∧ checkReply (some (.mk REDIS_REPLY_INTEGER 0 "" [])) = true
    ∧ checkReply (some (.mk REDIS_REPLY_STATUS 0 "ok" [])) = true
    ∧ checkReply (some (.mk REDIS_REPLY_STATUS 0 "OK" [])) = true
    ∧ checkReply none = false
    ∧ checkReply (some (.mk REDIS_REPLY_NIL 0 "" [])) = false
    ∧ checkReply (some (.mk REDIS_REPLY_ERROR 0 "ERR unknown command" [])) = false
    ∧ checkReply (some (.mk REDIS_REPLY_STATUS 0 "PONG" [])) = false
    ∧ checkReply (some (.mk 7 0 "OK" [])) = false := by
  refine ⟨?_, by decide, by decide, by decide, by decide, by decide, by decide, by decide,
    by decide⟩
  cases reply with
  | none => simp [checkReply]
  | some r =>
    simp only [checkReply, Option.some.injEq, exists_eq_left', ← strcasecmp_OK,
      REDIS_REPLY_STRING, REDIS_REPLY_ARRAY, REDIS_REPLY_INTEGER, REDIS_REPLY_NIL,
      REDIS_REPLY_STATUS, REDIS_REPLY_ERROR]
    generalize r.type = t
    split_ifs <;> simp_all

/-! ## The pool operations, case by case -/

theorem getConnection_pop (alloc : Allocator) (connectOk : Nat → Bool) (s : RedisPool)
    (c : Conn) (rest : List Conn) (h : s.connections_ = c :: rest) :
    getConnection alloc connectOk s = .returned c { s with connections_ := rest } := by
  simp [getConnection, getConnectionLoop, h]

theorem getConnection_wait (alloc : Allocator) (connectOk : Nat → Bool) (s : RedisPool)
    (h : s.connections_ = []) (hfull : s.minConn_ ≥ s.maxConn_) :
    getConnection alloc connectOk s = .waiting s := by
  simp [getConnection, getConnectionLoop, h, hfull]

theorem getConnection_grow (alloc : Allocator) (connectOk : Nat → Bool) (s : RedisPool)
    (h : s.connections_ = []) (hroom : s.minConn_ < s.maxConn_)
    (hok : connectOk s.constructed = true) :
    getConnection alloc connectOk s =
      .returned (alloc.addr s.constructed s.live)
        { s with connections_ := [], minConn_ := s.minConn_ + 1,
                 constructed := s.constructed + 1,
                 live := alloc.addr s.constructed s.live :: s.live } := by
  simp [getConnection, getConnectionLoop, newConnection, h, not_le.2 hroom, hok]

theorem getConnection_throw (alloc : Allocator) (connectOk : Nat → Bool) (s : RedisPool)
    (h : s.connections_ = []) (hroom : s.minConn_ < s.maxConn_)
    (hfail : connectOk s.constructed = false) :
    getConnection alloc connectOk s =
      .threw { s with constructed := s.constructed + 1,
                      live := (alloc.addr s.constructed s.live :: s.live).filter
                        (fun x => x ≠ alloc.addr s.constructed s.live) } := by
  simp [getConnection, getConnectionLoop, newConnection, deleteConnection, h, not_le.2 hroom,
    hfail]

/-- Two loop tests are enough for `getConnection`: a larger budget gives the same outcome, and
the outcome is never `outOfFuel`. -/
theorem getConnectionLoop_fuel (alloc : Allocator) (connectOk : Nat → Bool) (s : RedisPool)
    (fuel : Nat) :
    getConnectionLoop alloc connectOk (fuel + 2) s = getConnection alloc connectOk s ∧
      getConnection alloc connectOk s ≠ .outOfFuel := by
  cases hc : s.connections_ with
  | cons c rest => simp [getConnection, getConnectionLoop, hc]
  | nil =>
    by_cases hfull : s.minConn_ ≥ s.maxConn_
    · simp [getConnection, getConnectionLoop, hc, hfull]
    · cases hok : connectOk s.constructed <;>
        simp [getConnection, getConnectionLoop, newConnection, hc, hfull, hok]

/-- What a returning `getConnection` does to the pool: it pops the front of a non-empty list, or
it grows an empty list by a new connection and hands that one out. -/
theorem getConnection_returned (alloc : Allocator) (connectOk : Nat → Bool)
    (s s' : RedisPool) (c : Conn) (h : getConnection alloc connectOk s = .returned c s') :
    (s.connections_ = c :: s'.connections_ ∧ s' = { s with connections_ := s'.connections_ }) ∨
    (s.connections_ = [] ∧ s.minConn_ < s.maxConn_ ∧ c = alloc.addr s.constructed s.live ∧
      s' = { s with connections_ := [], minConn_ := s.minConn_ + 1,
                    constructed := s.constructed + 1,
                    live := alloc.addr s.constructed s.live :: s.live }) := by
  cases hc : s.connections_ with
  | cons c0 rest =>
    rw [getConnection_pop alloc connectOk s c0 rest hc] at h
    injection h with h1 h2
    subst h1; subst h2
    exact Or.inl ⟨rfl, rfl⟩
  | nil =>
    by_cases hfull : s.minConn_ ≥ s.maxConn_
    · rw [getConnection_wait alloc connectOk s hc hfull] at h; cases h
    · have hroom : s.minConn_ < s.maxConn_ := not_le.1 hfull
      cases hok : connectOk s.constructed with
      | false => rw [getConnection_throw alloc connectOk s hc hroom hok] at h; cases h
      | true =>
        rw [getConnection_grow alloc connectOk s hc hroom hok] at h
        injection h with h1 h2
        exact Or.inr ⟨rfl, hroom, h1.symm, h2.symm⟩

/-- A throwing `getConnection` leaves the list empty as it was, and every object that existed
before still exists. -/
theorem getConnection_threw (alloc : Allocator) (connectOk : Nat → Bool) (s s' : RedisPool)
    (h : getConnection alloc connectOk s = .threw s') :
    s.connections_ = [] ∧ s'.connections_ = [] ∧ s'.minConn_ = s.minConn_ ∧
      s'.maxConn_ = s.maxConn_ ∧ ∀ x, x ∈ s.live → x ∈ s'.live := by
  cases hc : s.connections_ with
  | cons c0 rest => rw [getConnection_pop alloc connectOk s c0 rest hc] at h; cases h
  | nil =>
    by_cases hfull : s.minConn_ ≥ s.maxConn_
    · rw [getConnection_wait alloc connectOk s hc hfull] at h; cases h
    · have hroom : s.minConn_ < s.maxConn_ := not_le.1 hfull
      cases hok : connectOk s.constructed with
      | false =>
        rw [getConnection_throw alloc connectOk s hc hroom hok] at h
        injection h with h1
        subst h1
        refine ⟨rfl, hc, rfl, rfl, fun x hx => ?_⟩
        have hne : x ≠ alloc.addr s.constructed s.live :=
          fun e => alloc.fresh s.constructed s.live (e ▸ hx)
        simp [hx, hne]
      | true => rw [getConnection_grow alloc connectOk s hc hroom hok] at h; cases h

theorem findConn_eq (conn : Conn) (l : List Conn) : findConn conn l = decide (conn ∈ l) := by
  induction l with
  | nil => simp [findConn]
  | cons x rest ih =>
    by_cases h : x = conn
    · simp [findConn, h]
    · have h2 : ¬ conn = x := fun e => h e.symm
      simp [findConn, h, h2, ih]

theorem freeConnection_connections (s : RedisPool) (c : Conn) :
    (freeConnection s c).connections_ =
      if c ∈ s.connections_ then s.connections_ else s.connections_ ++ [c] := by
  unfold freeConnection
  rw [findConn_eq]
  by_cases h : c ∈ s.connections_ <;> simp [h]

theorem freeConnection_fields (s : RedisPool) (c : Conn) :
    (freeConnection s c).minConn_ = s.minConn_ ∧ (freeConnection s c).maxConn_ = s.maxConn_ ∧
      (freeConnection s c).constructed = s.constructed ∧
      (freeConnection s c).live = s.live := by
  unfold freeConnection
  split <;> simp

/-! ## The sweep loop -/

/-- Whatever the sweep loop returns: the list is a sublist of the list it was started on, every
connection left in it exists, and the only objects it has deleted were in the part of the list
it walked over. -/
theorem sweepLoop_sound (ping : Conn → Bool) (n : Nat) :
    ∀ (live visited rest l live' : List Conn), rest.length ≤ n →
      sweepLoop ping live visited rest = some (l, live') →
      l.Sublist (visited ++ rest) ∧
      ((∀ x ∈ visited, x ∈ live) → ∀ x ∈ l, x ∈ live') ∧
      (∀ x ∈ live, x ∉ rest → x ∈ live') := by
  induction n with
  | zero =>
    intro live visited rest l live' hn h
    have hr : rest = [] := List.length_eq_zero.1 (Nat.le_zero.1 hn)
    subst hr
    rw [sweepLoop] at h
    injection h with h
    injection h with h1 h2
    subst h1; subst h2
    exact ⟨by simp, fun hv => hv, fun x hx _ => hx⟩
  | succ n ih =>
    intro live visited rest l live' hn h
    cases rest with
    | nil =>
      rw [sweepLoop] at h
      injection h with h
      injection h with h1 h2
      subst h1; subst h2
      exact ⟨by simp, fun hv => hv, fun x hx _ => hx⟩
    | cons c rest =>
      rw [sweepLoop] at h
      have hlen : rest.length ≤ n := by simpa using hn
      by_cases hl : c ∉ live
      · rw [if_pos hl] at h; cases h
      rw [if_neg hl] at h
      have hcl : c ∈ live := not_not.1 hl
      by_cases hp : ping c = false
      · rw [if_pos hp] at h
        by_cases hd : rest.head? = some c
        · rw [if_pos hd] at h; cases h
        · rw [if_neg hd] at h
          obtain ⟨hsub, hlv, hkeep⟩ := ih _ _ _ l live'
            (le_trans (List.length_filter_le _ rest) hlen) h
          refine ⟨?_, ?_, ?_⟩
          · refine hsub.trans (List.Sublist.append (List.filter_sublist _) ?_)
            exact (List.filter_sublist _).trans (List.sublist_cons_self c rest)
          · intro hv
            apply hlv
            intro x hx
            obtain ⟨hx1, hx2⟩ := List.mem_filter.1 hx
            exact List.mem_filter.2 ⟨hv x hx1, hx2⟩
          · intro x hx hnr
            have hxc : x ≠ c := fun e => hnr (e ▸ List.mem_cons_self c rest)
            apply hkeep x (List.mem_filter.2 ⟨hx, by simpa using hxc⟩)
            intro hm
            exact hnr (List.mem_cons_of_mem c (List.mem_filter.1 hm).1)
      · rw [if_neg hp] at h
        obtain ⟨hsub, hlv, hkeep⟩ := ih _ _ _ l live' hlen h
        refine ⟨by simpa using hsub, ?_, ?_⟩
        · intro hv
          apply hlv
          intro x hx
          rcases List.mem_append.1 hx with hx | hx
          · exact hv x hx
          · rw [List.mem_singleton] at hx
            rw [hx]; exact hcl
        · intro x hx hnr
          exact hkeep x hx (fun hm => hnr (List.mem_cons_of_mem c hm))

/-- On a list without duplicates whose connections all exist the sweep loop is defined and keeps
exactly the connections whose `ping()` answers, in their order; the others are deleted. -/
theorem sweepLoop_nodup (ping : Conn → Bool) (n : Nat) :
    ∀ (live visited rest : List Conn), rest.length ≤ n → (visited ++ rest).Nodup →
      (∀ x ∈ rest, x ∈ live) →
      sweepLoop ping live visited rest =
        some (visited ++ rest.filter ping,
              live.filter (fun x => decide (x ∉ rest) || ping x)) := by
  induction n with
  | zero =>
    intro live visited rest hn _ _
    have hr : rest = [] := List.length_eq_zero.1 (Nat.le_zero.1 hn)
    subst hr
    simp [sweepLoop]
  | succ n ih =>
    intro live visited rest hn hnd hlive
    cases rest with
    | nil => simp [sweepLoop]
    | cons c rest =>
      have hlen : rest.length ≤ n := by simpa using hn
      have hnd2 := List.nodup_append.1 hnd
      have hcr : c ∉ rest := (List.nodup_cons.1 hnd2.2.1).1
      have hcv : c ∉ visited := fun hv => hnd2.2.2 hv (List.mem_cons_self c rest)
      have hcl : c ∈ live := hlive c (List.mem_cons_self c rest)
      have hfr : rest.filter (fun x => x ≠ c) = rest := by
        apply List.filter_eq_self.2
        intro a ha
        have hne : a ≠ c := fun e => hcr (e ▸ ha)
        simpa using hne
      have hfv : visited.filter (fun x => x ≠ c) = visited := by
        apply List.filter_eq_self.2
        intro a ha
        have hne : a ≠ c := fun e => hcv (e ▸ ha)
        simpa using hne
      rw [sweepLoop, if_neg (not_not.2 hcl)]
      by_cases hp : ping c = false
      · have hd : ¬ rest.head? = some c := by
          intro hh
          exact hcr (List.mem_of_mem_head? hh)
        rw [if_pos hp, if_neg hd, hfr, hfv]
        have hnd3 : (visited ++ rest).Nodup := by
          refine List.nodup_append.2 ⟨hnd2.1, (List.nodup_cons.1 hnd2.2.1).2, ?_⟩
          intro a hav har
          exact hnd2.2.2 hav (List.mem_cons_of_mem c har)
        have hlive3 : ∀ x ∈ rest, x ∈ live.filter (fun x => x ≠ c) := by
          intro x hx
          have hne : x ≠ c := fun e => hcr (e ▸ hx)
          exact List.mem_filter.2 ⟨hlive x (List.mem_cons_of_mem c hx), by simpa using hne⟩
        rw [ih _ _ _ hlen hnd3 hlive3, List.filter_filter]
        simp only [hp, List.filter_cons_of_neg, Bool.false_eq_true, not_false_eq_true,
          Option.some.injEq, Prod.mk.injEq, true_and]
        apply List.filter_congr
        intro x _
        by_cases hxc : x = c
        · subst hxc; simp [hp]
        · simp [hxc]
      · have hp2 : ping c = true := by simpa using hp
        rw [if_neg hp]
        have hnd3 : ((visited ++ [c]) ++ rest).Nodup := by simpa using hnd
        rw [ih _ _ _ hlen hnd3 (fun x hx => hlive x (List.mem_cons_of_mem c hx))]
        simp only [hp2, List.filter_cons_of_pos, List.append_assoc, List.singleton_append,
          Option.some.injEq, Prod.mk.injEq, true_and]
        apply List.filter_congr
        intro x _
        by_cases hxc : x = c
        · subst hxc; simp [hp2]
        · simp [hxc]

theorem serverCronPass_sound (ping : Conn → Bool) (s s' : RedisPool)
    (h : serverCronPass ping s = some s') :
    s'.connections_.Sublist s.connections_ ∧ s'.minConn_ = s.minConn_ ∧
      s'.maxConn_ = s.maxConn_ ∧ s'.constructed = s.constructed ∧
      (∀ x ∈ s'.connections_, x ∈ s'.live) ∧
      (∀ x ∈ s.live, x ∉ s.connections_ → x ∈ s'.live) := by
  unfold serverCronPass at h
  cases hl : sweepLoop ping s.live [] s.connections_ with
  | none => rw [hl] at h; cases h
  | some p =>
    obtain ⟨l, d⟩ := p
    rw [hl] at h
    injection h with h
    subst h
    obtain ⟨hsub, hlv, hkeep⟩ := sweepLoop_sound ping _ _ _ _ l d (le_refl _) hl
    exact ⟨by simpa using hsub, rfl, rfl, rfl, hlv (by simp), hkeep⟩

theorem serverCronPass_nodup (ping : Conn → Bool) (s : RedisPool)
    (hnd : s.connections_.Nodup) (hlive : ∀ x ∈ s.connections_, x ∈ s.live) :
    serverCronPass ping s =
      some { s with connections_ := s.connections_.filter ping,
                    live := s.live.filter
                      (fun x => decide (x ∉ s.connections_) || ping x) } := by
  unfold serverCronPass
  rw [sweepLoop_nodup ping _ _ _ _ (le_refl _) (by simpa using hnd) hlive]
  simp

/-! ## `init` -/

/-- The function `init()` pushes one pointer per turn of its loop, whatever `connect()` did. -/
theorem initLoop_spec (alloc : Allocator) (connectOk : Nat → Bool) (n : Nat) :
    ∀ s : RedisPool,
      (initLoop alloc connectOk n s).connections_.length = s.connections_.length + n ∧
      (initLoop alloc connectOk n s).constructed = s.constructed + n ∧
      (initLoop alloc connectOk n s).minConn_ = s.minConn_ ∧
      (initLoop alloc connectOk n s).maxConn_ = s.maxConn_ := by
  induction n with
  | zero => intro s; simp [initLoop]
  | succ n ih =>
    intro s
    cases hok : connectOk s.constructed <;>
      simp [initLoop, newConnection, deleteConnection, hok, ih] <;> omega

/-- When every `connect()` succeeds, `init()` keeps the list free of duplicates and of dangling
pointers. -/
theorem initLoop_live (alloc : Allocator) (connectOk : Nat → Bool) (n : Nat) :
    ∀ s : RedisPool, (∀ i, i < n → connectOk (s.constructed + i) = true) →
      s.connections_.Nodup → (∀ x ∈ s.connections_, x ∈ s.live) →
      (initLoop alloc connectOk n s).connections_.Nodup ∧
      ∀ x ∈ (initLoop alloc connectOk n s).connections_,
        x ∈ (initLoop alloc connectOk n s).live := by
  induction n with
  | zero => intro s _ h1 h2; exact ⟨h1, h2⟩
  | succ n ih =>
    intro s hok h1 h2
    have hok0 : connectOk s.constructed = true := by simpa using hok 0 (Nat.succ_pos n)
    have hfresh := alloc.fresh s.constructed s.live
    rw [initLoop]
    simp only [hok0, if_true, newConnection]
    apply ih
    · intro i hi
      have := hok (i + 1) (Nat.succ_lt_succ hi)
      simpa [Nat.add_assoc, Nat.add_comm 1 i] using this
    · simp only
      rw [List.nodup_append]
      refine ⟨h1, List.nodup_singleton _, ?_⟩
      intro a ha hb
      rw [List.mem_singleton] at hb
      exact hfresh (hb ▸ h2 a ha)
    · intro x hx
      simp only at hx ⊢
      rcases List.mem_append.1 hx with hx | hx
      · exact List.mem_cons_of_mem _ (h2 x hx)
      · rw [List.mem_singleton] at hx
        rw [hx]; exact List.mem_cons_self _ _

theorem init_spec (alloc : Allocator) (connectOk : Nat → Bool) (minConn maxConn : Int) :
    (init alloc connectOk (RedisPool.ctor minConn maxConn)).connections_.length =
      minConn.toNat ∧
    (init alloc connectOk (RedisPool.ctor minConn maxConn)).minConn_ = minConn ∧
    (init alloc connectOk (RedisPool.ctor minConn maxConn)).maxConn_ = maxConn := by
  obtain ⟨h1, _, h3, h4⟩ :=
    initLoop_spec alloc connectOk minConn.toNat (RedisPool.ctor minConn maxConn)
  have e : (RedisPool.ctor minConn maxConn).minConn_ = minConn := rfl
  unfold init
  rw [e]
  refine ⟨?_, h3, h4⟩
  rw [h1]; simp [RedisPool.ctor]

/-! ## The bound on the number of connections -/

/-- In a reachable state `minConn_` bounds the idle and the checked-out connections together
and never exceeds `maxConn_`. -/
theorem Reachable.count_le (minConn maxConn : Int) (h0 : 0 ≤ minConn) (hle : minConn ≤ maxConn)
    (s : RedisPool) (out : List Conn) (h : Reachable minConn maxConn s out) :
    (s.connections_.length : Int) + out.length ≤ s.minConn_ ∧ s.minConn_ ≤ s.maxConn_ ∧
      s.maxConn_ = maxConn := by
  induction h with
  | init alloc connectOk =>
    obtain ⟨h1, h3, h4⟩ := init_spec alloc connectOk minConn maxConn
    rw [h1, h3, h4]
    simp
    omega
  | acquire alloc connectOk c s' _ hget ih =>
    obtain ⟨i1, i2, i3⟩ := ih
    rcases getConnection_returned alloc connectOk _ s' c hget with
      ⟨hc, hs⟩ | ⟨hc, hroom, _, hs⟩
    · rw [hs]
      rw [hc] at i1
      simp only [List.length_cons] at i1 ⊢
      push_cast at i1 ⊢
      exact ⟨by omega, i2, i3⟩
    · rw [hs]
      rw [hc] at i1
      simp only [List.length_cons, List.length_nil] at i1 ⊢
      push_cast at i1 ⊢
      exact ⟨by omega, by omega, i3⟩
  | acquireThrew alloc connectOk s' _ hget ih =>
    obtain ⟨i1, i2, i3⟩ := ih
    obtain ⟨g0, g1, g2, g3, _⟩ := getConnection_threw alloc connectOk _ s' hget
    rw [g1, g2, g3]
    rw [g0] at i1
    exact ⟨i1, i2, i3⟩
  | @release s out c _ hc ih =>
    obtain ⟨i1, i2, i3⟩ := ih
    obtain ⟨f1, f2, _, _⟩ := freeConnection_fields s c
    rw [f1, f2, freeConnection_connections, List.length_erase_of_mem hc]
    have hpos : 0 < out.length := List.length_pos_of_mem hc
    refine ⟨?_, i2, i3⟩
    split
    · omega
    · simp only [List.length_append, List.length_singleton]
      omega
  | sweep ping s' _ hsw ih =>
    obtain ⟨i1, i2, i3⟩ := ih
    obtain ⟨hsub, g1, g2, _, _, _⟩ := serverCronPass_sound ping _ s' hsw
    rw [g1, g2]
    have := hsub.length_le
    exact ⟨by omega, i2, i3⟩

/-- C2: for a pool constructed with `0 <= minConn <= maxConn`, in every state reachable from
`init()` by `getConnection`, `freeConnection` of a checked-out connection and sweep passes, the
idle connections and the checked-out connections together number at most `maxConn`. -/
theorem idle_plus_checked_out_le_maxConn (minConn maxConn : Int) (h0 : 0 ≤ minConn)
    (hle : minConn ≤ maxConn) (s : RedisPool) (out : List Conn)
    (h : Reachable minConn maxConn s out) :
    (s.connections_.length : Int) + out.length ≤ maxConn := by
  obtain ⟨i1, i2, i3⟩ := Reachable.count_le minConn maxConn h0 hle s out h
  omega

/-- Witness for C2: the pool with `minConn = 1`, `maxConn = 2` after `init()`, two
`getConnection` calls (the second one grows the pool) and one `freeConnection`. -/
theorem idle_plus_checked_out_le_maxConn_witness :
    (0 : Int) ≤ 1 ∧ (1 : Int) ≤ 2 ∧
      Reachable 1 2 ⟨2, 2, [1], 2, [2, 1]⟩ [2] ∧
      (((⟨2, 2, [1], 2, [2, 1]⟩ : RedisPool).connections_.length : Int) + [2].length ≤ 2) :=
  have hr : Reachable 1 2 ⟨2, 2, [1], 2, [2, 1]⟩ [2] :=
    @Reachable.release 1 2 ⟨2, 2, [], 2, [2, 1]⟩ [2, 1] 1
      (@Reachable.acquire 1 2 ⟨1, 2, [], 1, [1]⟩ [1] bumpAllocator (fun _ => true) 2
        ⟨2, 2, [], 2, [2, 1]⟩
        (@Reachable.acquire 1 2 ⟨1, 2, [1], 1, [1]⟩ [] bumpAllocator (fun _ => true) 1
          ⟨1, 2, [], 1, [1]⟩ (Reachable.init bumpAllocator (fun _ => true)) (by decide))
        (by decide))
      (by decide)
  ⟨by decide, by decide, hr,
    idle_plus_checked_out_le_maxConn 1 2 (by decide) (by decide) _ _ hr⟩

/-! ## Handles of checked-out connections -/

/-- After an `init()` whose every `connect()` succeeded, and as long as only connections that
exist are released, the idle collection never holds a pointer twice and never holds a dangling
pointer. -/
theorem ReachableLive.nodup_live (minConn maxConn : Int) (s : RedisPool)
    (h : ReachableLive minConn maxConn s) :
    s.connections_.Nodup ∧ ∀ x ∈ s.connections_, x ∈ s.live := by
  induction h with
  | init alloc connectOk hok =>
    unfold RedisClient.init
    apply initLoop_live
    · intro i hi
      have e : (RedisPool.ctor minConn maxConn).constructed + i = i := by
        simp [RedisPool.ctor]
      rw [e]
      exact hok i hi
    · simp [RedisPool.ctor]
    · simp [RedisPool.ctor]
  | acquire alloc connectOk c s' _ hget ih =>
    obtain ⟨i1, i2⟩ := ih
    rcases getConnection_returned alloc connectOk _ s' c hget with ⟨hc, hs⟩ | ⟨hc, _, _, hs⟩
    · rw [hc] at i1 i2
      refine ⟨(List.nodup_cons.1 i1).2, fun x hx => ?_⟩
      have := i2 x (List.mem_cons_of_mem c hx)
      rw [hs]
      exact this
    · rw [hs]
      simp
  | acquireThrew alloc connectOk s' _ hget ih =>
    obtain ⟨_, g1, _, _, _⟩ := getConnection_threw alloc connectOk _ s' hget
    rw [g1]
    simp
  | @release s c _ hc ih =>
    obtain ⟨i1, i2⟩ := ih
    obtain ⟨_, _, _, f4⟩ := freeConnection_fields s c
    rw [f4, freeConnection_connections]
    split
    · exact ⟨i1, i2⟩
    · rename_i hmem
      refine ⟨?_, ?_⟩
      · rw [List.nodup_append]
        refine ⟨i1, List.nodup_singleton c, ?_⟩
        intro a ha hb
        rw [List.mem_singleton] at hb
        exact hmem (hb ▸ ha)
      · intro x hx
        rcases List.mem_append.1 hx with hx | hx
        · exact i2 x hx
        · rw [List.mem_singleton] at hx
          rw [hx]; exact hc
  | construct a _ _ ih =>
    exact ⟨ih.1, fun x hx => List.mem_cons_of_mem a (ih.2 x hx)⟩
  | sweep ping s' _ hsw ih =>
    obtain ⟨hsub, _, _, _, hl, _⟩ := serverCronPass_sound ping _ s' hsw
    exact ⟨ih.1.sublist hsub, hl⟩

/-- While the caller keeps `c`, no pool operation puts `c` back into the idle collection and
none deletes it. -/
theorem WhileHeld.not_mem (c : Conn) (s t : RedisPool) (h : WhileHeld c s t)
    (h1 : c ∉ s.connections_) (h2 : c ∈ s.live) :
    c ∉ t.connections_ ∧ c ∈ t.live := by
  induction h with
  | start => exact ⟨h1, h2⟩
  | acquire alloc connectOk d t' _ hget ih =>
    obtain ⟨i1, i2⟩ := ih
    rcases getConnection_returned alloc connectOk _ t' d hget with ⟨hc, hs⟩ | ⟨hc, _, _, hs⟩
    · rw [hc] at i1
      refine ⟨fun hm => i1 (List.mem_cons_of_mem d hm), ?_⟩
      rw [hs]; exact i2
    · rw [hs]
      exact ⟨by simp, List.mem_cons_of_mem _ i2⟩
  | acquireThrew alloc connectOk t' _ hget ih =>
    obtain ⟨_, g1, _, _, g4⟩ := getConnection_threw alloc connectOk _ t' hget
    rw [g1]
    exact ⟨by simp, g4 c ih.2⟩
  | @release t d _ hne _ ih =>
    obtain ⟨_, _, _, f4⟩ := freeConnection_fields t d
    rw [f4, freeConnection_connections]
    refine ⟨?_, ih.2⟩
    split
    · exact ih.1
    · intro hm
      rcases List.mem_append.1 hm with hm | hm
      · exact ih.1 hm
      · rw [List.mem_singleton] at hm
        exact hne hm.symm
  | construct a _ _ ih => exact ⟨ih.1, List.mem_cons_of_mem a ih.2⟩
  | sweep ping t' _ hsw ih =>
    obtain ⟨hsub, _, _, _, _, hkeep⟩ := serverCronPass_sound ping _ t' hsw
    exact ⟨fun hm => ih.1 (hsub.subset hm), hkeep c ih.2 ih.1⟩

/-- Counterexample to C3 as stated, in two runs with an allocator that hands a freed address out
again. First run (`minConn = 1`, `maxConn = 2`, every `connect()` succeeds): connection `1` is
acquired and released, a sweep pass deletes it, the caller releases it once more, the next
`getConnection` returns the pointer `1`, and the `getConnection` after that, with no release in
between, constructs a connection at the freed address and returns the pointer `1` again.
Second run (`minConn = 2`, every `connect()` of `init()` throws): `init()` leaves the deleted
pointer `1` twice in the idle collection, and after `getConnection` has returned `1` the idle
collection still holds `1`. -/
theorem getConnection_handle_counterexample :
    (init reusingAllocator (fun _ => true) (RedisPool.ctor 1 2) = ⟨1, 2, [1], 1, [1]⟩ ∧
      getConnection reusingAllocator (fun _ => true) ⟨1, 2, [1], 1, [1]⟩ =
        .returned 1 ⟨1, 2, [], 1, [1]⟩ ∧
      freeConnection ⟨1, 2, [], 1, [1]⟩ 1 = ⟨1, 2, [1], 1, [1]⟩ ∧
      serverCronPass (fun _ => false) ⟨1, 2, [1], 1, [1]⟩ = some ⟨1, 2, [], 1, []⟩ ∧
      freeConnection ⟨1, 2, [], 1, []⟩ 1 = ⟨1, 2, [1], 1, []⟩ ∧
      getConnection reusingAllocator (fun _ => true) ⟨1, 2, [1], 1, []⟩ =
        .returned 1 ⟨1, 2, [], 1, []⟩ ∧
      getConnection reusingAllocator (fun _ => true) ⟨1, 2, [], 1, []⟩ =
        .returned 1 ⟨2, 2, [], 2, [1]⟩) ∧
    (init reusingAllocator (fun _ => false) (RedisPool.ctor 2 2) = ⟨2, 2, [1, 1], 2, []⟩ ∧
      getConnection reusingAllocator (fun _ => true) ⟨2, 2, [1, 1], 2, []⟩ =
        .returned 1 ⟨2, 2, [1], 2, []⟩ ∧
      1 ∈ (⟨2, 2, [1], 2, []⟩ : RedisPool).connections_) := by
  refine ⟨⟨by decide, by decide, by decide, ?_, by decide, by decide, by decide⟩,
    by decide, by decide, by decide⟩
  simp [serverCronPass, sweepLoop]

/-- C3 (amended): in every pool state reachable from an `init()` whose every `connect()`
succeeded, by `getConnection`, `freeConnection` of connections that exist (also repeated on the
same connection) and sweep passes, a connection `c` returned by `getConnection` no longer occurs
in the idle collection, and as long as `c` is not released it stays out of the idle collection
and no further `getConnection` returns it. -/
theorem getConnection_removes_live_handle (minConn maxConn : Int) (s : RedisPool)
    (h : ReachableLive minConn maxConn s) (alloc : Allocator) (connectOk : Nat → Bool)
    (c : Conn) (s' : RedisPool) (hget : getConnection alloc connectOk s = .returned c s') :
    c ∉ s'.connections_ ∧
      ∀ t, WhileHeld c s' t →
        c ∉ t.connections_ ∧
        ∀ (alloc2 : Allocator) (connectOk2 : Nat → Bool) (d : Conn) (t' : RedisPool),
          getConnection alloc2 connectOk2 t = .returned d t' → d ≠ c := by
  obtain ⟨i1, i2⟩ := ReachableLive.nodup_live minConn maxConn s h
  have hbase : c ∉ s'.connections_ ∧ c ∈ s'.live := by
    rcases getConnection_returned alloc connectOk s s' c hget with ⟨hc, hs⟩ | ⟨hc, _, hcc, hs⟩
    · rw [hc] at i1 i2
      refine ⟨(List.nodup_cons.1 i1).1, ?_⟩
      rw [hs]
      exact i2 c (List.mem_cons_self c _)
    · rw [hs, hcc]
      exact ⟨by simp, List.mem_cons_self _ _⟩
  refine ⟨hbase.1, fun t ht => ?_⟩
  obtain ⟨j1, j2⟩ := WhileHeld.not_mem c s' t ht hbase.1 hbase.2
  refine ⟨j1, fun alloc2 connectOk2 d t' hget2 => ?_⟩
  rcases getConnection_returned alloc2 connectOk2 t t' d hget2 with ⟨hc, _⟩ | ⟨_, _, hd, _⟩
  · intro hdc
    apply j1
    rw [hc, hdc]
    exact List.mem_cons_self c _
  · intro hdc
    apply alloc2.fresh t.constructed t.live
    rw [← hd, hdc]
    exact j2

/-- Witness for C3 (amended): `init()` with `minConn = 1`, `maxConn = 2`, two `getConnection`
calls (the second grows the pool), then `freeConnection` of connection `1`, of connection `2`
and of connection `1` again; the next `getConnection` returns connection `1` and leaves only
connection `2` idle. -/
theorem getConnection_removes_live_handle_witness :
    ReachableLive 1 2 ⟨2, 2, [1, 2], 2, [2, 1]⟩ ∧
      getConnection bumpAllocator (fun _ => true) ⟨2, 2, [1, 2], 2, [2, 1]⟩ =
        .returned 1 ⟨2, 2, [2], 2, [2, 1]⟩ ∧
      (1 ∉ (⟨2, 2, [2], 2, [2, 1]⟩ : RedisPool).connections_ ∧
        ∀ t, WhileHeld 1 ⟨2, 2, [2], 2, [2, 1]⟩ t →
          1 ∉ t.connections_ ∧
          ∀ (alloc2 : Allocator) (connectOk2 : Nat → Bool) (d : Conn) (t' : RedisPool),
            getConnection alloc2 connectOk2 t = .returned d t' → d ≠ 1) :=
  have hr : ReachableLive 1 2 ⟨2, 2, [1, 2], 2, [2, 1]⟩ :=
    @ReachableLive.release 1 2 ⟨2, 2, [1, 2], 2, [2, 1]⟩ 1
      (@ReachableLive.release 1 2 ⟨2, 2, [1], 2, [2, 1]⟩ 2
        (@ReachableLive.release 1 2 ⟨2, 2, [], 2, [2, 1]⟩ 1
          (@ReachableLive.acquire 1 2 ⟨1, 2, [], 1, [1]⟩ bumpAllocator (fun _ => true) 2
            ⟨2, 2, [], 2, [2, 1]⟩
            (@ReachableLive.acquire 1 2 ⟨1, 2, [1], 1, [1]⟩ bumpAllocator (fun _ => true) 1
              ⟨1, 2, [], 1, [1]⟩
              (ReachableLive.init bumpAllocator (fun _ => true) (fun _ _ => rfl))
              (by decide))
            (by decide))
          (by decide))
        (by decide))
      (by decide)
  ⟨hr, by decide,
    getConnection_removes_live_handle 1 2 _ hr bumpAllocator (fun _ => true) 1
      ⟨2, 2, [2], 2, [2, 1]⟩ (by decide)⟩

/-! ## Acquire and release -/

/-- Counterexample to C4 as stated: on the pool with `minConn = 0`, `maxConn = 1` right after
`init()` the idle collection is empty, `getConnection` creates connection `1` and returns it,
and after `freeConnection(1)` the idle collection holds one connection, not zero. -/
theorem acquire_release_count_counterexample :
    (init bumpAllocator (fun _ => true) (RedisPool.ctor 0 1)).connections_.length = 0 ∧
    getConnection bumpAllocator (fun _ => true)
        (init bumpAllocator (fun _ => true) (RedisPool.ctor 0 1)) =
      .returned 1 ⟨1, 1, [], 1, [1]⟩ ∧
    (freeConnection ⟨1, 1, [], 1, [1]⟩ 1).connections_.length = 1 := by
  decide

/-- C4 (amended): in a pool state whose idle collection holds no connection twice, when
`getConnection` returns `c` and `freeConnection(c)` follows at once, the idle count is what it
was before the `getConnection` if the idle collection was not empty, and it is `1` if the idle
collection was empty and `getConnection` created `c`. -/
theorem acquire_release_idle_count (alloc : Allocator) (connectOk : Nat → Bool)
    (s s' : RedisPool) (c : Conn)
    (hnd : s.connections_.Nodup) (hget : getConnection alloc connectOk s = .returned c s') :
    (s.connections_ ≠ [] →
      (freeConnection s' c).connections_.length = s.connections_.length) ∧
    (s.connections_ = [] → (freeConnection s' c).connections_.length = 1) := by
  rw [freeConnection_connections]
  rcases getConnection_returned alloc connectOk s s' c hget with ⟨hc, _⟩ | ⟨hc, _, _, hs⟩
  · have hnot : c ∉ s'.connections_ := by
      rw [hc] at hnd
      exact (List.nodup_cons.1 hnd).1
    rw [if_neg hnot, hc]
    simp
  · rw [hs]
    simp [hc]

/-- Witness for C4 (amended): the pool with two idle connections `1`, `2`; `getConnection`
returns `1`, and after `freeConnection(1)` two connections are idle again. -/
theorem acquire_release_idle_count_witness :
    (⟨2, 2, [1, 2], 2, [2, 1]⟩ : RedisPool).connections_.Nodup ∧
      getConnection bumpAllocator (fun _ => true) ⟨2, 2, [1, 2], 2, [2, 1]⟩ =
        .returned 1 ⟨2, 2, [2], 2, [2, 1]⟩ ∧
      (((⟨2, 2, [1, 2], 2, [2, 1]⟩ : RedisPool).connections_ ≠ [] →
        (freeConnection ⟨2, 2, [2], 2, [2, 1]⟩ 1).connections_.length =
          (⟨2, 2, [1, 2], 2, [2, 1]⟩ : RedisPool).connections_.length) ∧
      ((⟨2, 2, [1, 2], 2, [2, 1]⟩ : RedisPool).connections_ = [] →
        (freeConnection ⟨2, 2, [2], 2, [2, 1]⟩ 1).connections_.length = 1)) :=
  ⟨by decide, by decide,
    acquire_release_idle_count bumpAllocator (fun _ => true) ⟨2, 2, [1, 2], 2, [2, 1]⟩
      ⟨2, 2, [2], 2, [2, 1]⟩ 1 (by decide) (by decide)⟩

/-- C5: `freeConnection` is idempotent: releasing `c` twice in a row leaves the pool as
releasing it once does; the idle collection is unchanged when `c` is already in it, and
otherwise `c`, whatever connection it is, is appended exactly once. -/
theorem freeConnection_idempotent (s : RedisPool) (c : Conn) :
    freeConnection (freeConnection s c) c = freeConnection s c ∧
    (freeConnection s c).connections_ =
      (if c ∈ s.connections_ then s.connections_ else s.connections_ ++ [c]) ∧
    (freeConnection s c).connections_.count c =
      (if c ∈ s.connections_ then s.connections_.count c else 1) := by
  have hconn := freeConnection_connections s c
  refine ⟨?_, hconn, ?_⟩
  · have hmem : c ∈ (freeConnection s c).connections_ := by
      rw [hconn]; split <;> simp_all
    have hfind : findConn c (freeConnection s c).connections_ = true := by
      rw [findConn_eq]; simpa using hmem
    generalize freeConnection s c = t at hfind
    simp [freeConnection, hfind]
  · rw [hconn]
    split
    · rfl
    · rename_i hmem
      simp [List.count_eq_zero_of_not_mem hmem]

/-! ## The sweep pass -/

/-- C6: one sweep pass over an idle collection without duplicates whose connections all exist is
defined and leaves the old collection filtered by `ping()` success: every connection whose
`ping()` fails is deleted and gone, every connection whose `ping()` succeeds is kept in its
place, whatever the pattern of dead connections; and the next `getConnection` does not return
an evicted connection: it returns a connection that answered the ping, or one that did not
exist after the pass and that the call itself has constructed. -/
theorem serverCron_pass_filters (ping : Conn → Bool) (s : RedisPool)
    (hnd : s.connections_.Nodup) (hlive : ∀ c ∈ s.connections_, c ∈ s.live) :
    ∃ s', serverCronPass ping s = some s' ∧
      s'.connections_ = s.connections_.filter ping ∧
      (∀ c ∈ s.connections_, ping c = false → c ∉ s'.connections_ ∧ c ∉ s'.live) ∧
      (∀ c ∈ s.connections_, ping c = true → c ∈ s'.connections_ ∧ c ∈ s'.live) ∧
      s'.connections_.Sublist s.connections_ ∧
      (∀ c ∈ s.connections_, ping c = false →
        ∀ (alloc : Allocator) (connectOk : Nat → Bool) (d : Conn) (t : RedisPool),
          getConnection alloc connectOk s' = .returned d t →
            (d ∈ s.connections_ ∧ ping d = true ∧ d ≠ c) ∨
            (s'.connections_ = [] ∧ d ∉ s'.live ∧ d ∈ t.live)) := by
  refine ⟨_, serverCronPass_nodup ping s hnd hlive, rfl, ?_, ?_, ?_, ?_⟩
  · intro c hc hp
    constructor
    · intro hm
      have := (List.mem_filter.1 hm).2
      rw [hp] at this
      cases this
    · intro hm
      have := (List.mem_filter.1 hm).2
      simp [hc, hp] at this
  · intro c hc hp
    exact ⟨List.mem_filter.2 ⟨hc, hp⟩, List.mem_filter.2 ⟨hlive c hc, by simp [hp]⟩⟩
  · exact List.filter_sublist _
  · intro c _ hp alloc connectOk d t hget
    rcases getConnection_returned alloc connectOk _ t d hget with ⟨h1, _⟩ | ⟨h1, _, h2, h3⟩
    · left
      have hm : d ∈ List.filter ping s.connections_ := by
        have : d ∈ d :: t.connections_ := List.mem_cons_self d _
        rw [← h1] at this
        exact this
      obtain ⟨hd1, hd2⟩ := List.mem_filter.1 hm
      refine ⟨hd1, hd2, fun hdc => ?_⟩
      rw [hdc, hp] at hd2
      cases hd2
    · right
      refine ⟨h1, ?_, ?_⟩
      · rw [h2]
        exact alloc.fresh _ _
      · rw [h3, h2]
        exact List.mem_cons_self _ _

/-- Witness for C6: four idle connections of which the two in the middle, next to each other,
are dead. -/
theorem serverCron_pass_filters_witness :
    (⟨4, 4, [1, 2, 3, 4], 4, [4, 3, 2, 1]⟩ : RedisPool).connections_.Nodup ∧
    (∀ c ∈ (⟨4, 4, [1, 2, 3, 4], 4, [4, 3, 2, 1]⟩ : RedisPool).connections_,
      c ∈ (⟨4, 4, [1, 2, 3, 4], 4, [4, 3, 2, 1]⟩ : RedisPool).live) ∧
    ∃ s', serverCronPass pingEnds ⟨4, 4, [1, 2, 3, 4], 4, [4, 3, 2, 1]⟩ = some s' ∧
      s'.connections_ =
        (⟨4, 4, [1, 2, 3, 4], 4, [4, 3, 2, 1]⟩ : RedisPool).connections_.filter pingEnds ∧
      (∀ c ∈ (⟨4, 4, [1, 2, 3, 4], 4, [4, 3, 2, 1]⟩ : RedisPool).connections_,
        pingEnds c = false → c ∉ s'.connections_ ∧ c ∉ s'.live) ∧
      (∀ c ∈ (⟨4, 4, [1, 2, 3, 4], 4, [4, 3, 2, 1]⟩ : RedisPool).connections_,
        pingEnds c = true → c ∈ s'.connections_ ∧ c ∈ s'.live) ∧
      s'.connections_.Sublist (⟨4, 4, [1, 2, 3, 4], 4, [4, 3, 2, 1]⟩ : RedisPool).connections_ ∧
      (∀ c ∈ (⟨4, 4, [1, 2, 3, 4], 4, [4, 3, 2, 1]⟩ : RedisPool).connections_,
        pingEnds c = false →
        ∀ (alloc : Allocator) (connectOk : Nat → Bool) (d : Conn) (t : RedisPool),
          getConnection alloc connectOk s' = .returned d t →
            (d ∈ (⟨4, 4, [1, 2, 3, 4], 4, [4, 3, 2, 1]⟩ : RedisPool).connections_ ∧
              pingEnds d = true ∧ d ≠ c) ∨
            (s'.connections_ = [] ∧ d ∉ s'.live ∧ d ∈ t.live)) :=
  ⟨by decide, by decide,
    serverCron_pass_filters pingEnds ⟨4, 4, [1, 2, 3, 4], 4, [4, 3, 2, 1]⟩ (by decide)
      (by decide)⟩

/-- The sweep pass of the witness of C6, evaluated: connections `2` and `3` are deleted and
removed, `1` and `4` stay. -/
theorem serverCronPass_consecutive_dead :
    serverCronPass pingEnds ⟨4, 4, [1, 2, 3, 4], 4, [4, 3, 2, 1]⟩ =
      some ⟨4, 4, [1, 4], 4, [4, 1]⟩ := by
  simp [serverCronPass, sweepLoop, pingEnds]

/-- The sweep loop on a list that holds a dead connection twice in a row: after `remove` the
iterator points into an erased node, the pass has no defined outcome. -/
theorem serverCronPass_adjacent_duplicate :
    serverCronPass (fun _ => false) ⟨2, 2, [1, 1], 2, [1]⟩ = none := by
  simp [serverCronPass, sweepLoop]

/-- The sweep loop on the list that `init()` leaves when every `connect()` threw: the first
`ping()` is a call on a deleted connection, the pass has no defined outcome. -/
theorem serverCronPass_dangling :
    init bumpAllocator (fun _ => false) (RedisPool.ctor 2 3) = ⟨2, 3, [1, 2], 2, []⟩ ∧
    ∀ ping : Conn → Bool, serverCronPass ping ⟨2, 3, [1, 2], 2, []⟩ = none := by
  refine ⟨by decide, fun ping => ?_⟩
  simp [serverCronPass, sweepLoop]

/-! ## Defects of `init()` and of the sweep -/

/-- C7 (the code does otherwise): `init()` pushes every connection it constructs, also the ones
whose `connect()` threw and which it has deleted; with `minConn = 2` and an unreachable server
the idle collection holds two pointers to deleted connections, and with an allocator that hands
the freed address out again it holds the same pointer twice. -/
theorem init_keeps_failed_connections :
    (∀ (alloc : Allocator) (connectOk : Nat → Bool) (minConn maxConn : Int),
      (init alloc connectOk (RedisPool.ctor minConn maxConn)).connections_.length =
        minConn.toNat) ∧
    init bumpAllocator (fun _ => false) (RedisPool.ctor 2 3) = ⟨2, 3, [1, 2], 2, []⟩ ∧
    init reusingAllocator (fun _ => false) (RedisPool.ctor 2 3) = ⟨2, 3, [1, 1], 2, []⟩ := by
  refine ⟨fun alloc connectOk minConn maxConn => ?_, by decide, by decide⟩
  exact (init_spec alloc connectOk minConn maxConn).1

/-- C8 (the code does otherwise): a sweep pass leaves `minConn_`, the value `getConnection`
compares with `maxConn_`, as it is. On the pool with `minConn = maxConn = 2` after `init()`
against a reachable server, a sweep pass in which every `ping()` fails empties the idle
collection, and the next `getConnection` waits although no connection is left. -/
theorem sweep_keeps_count_acquire_waits :
    init bumpAllocator (fun _ => true) (RedisPool.ctor 2 2) = ⟨2, 2, [1, 2], 2, [2, 1]⟩ ∧
    serverCronPass (fun _ => false) ⟨2, 2, [1, 2], 2, [2, 1]⟩ = some ⟨2, 2, [], 2, []⟩ ∧
    ∀ (alloc : Allocator) (connectOk : Nat → Bool),
      getConnection alloc connectOk ⟨2, 2, [], 2, []⟩ = .waiting ⟨2, 2, [], 2, []⟩ := by
  refine ⟨by decide, ?_, fun alloc connectOk => ?_⟩
  · simp [serverCronPass, sweepLoop]
  · exact getConnection_wait alloc connectOk _ rfl (by decide)

/-! ## Growth up to `maxConn` -/

/-- Growth from an empty idle collection: `m` calls in a row each construct a connection as
long as `minConn_ + m` does not exceed `maxConn_`, and the connections are pairwise distinct. -/
theorem acquireMany_grow (alloc : Allocator) (connectOk : Nat → Bool)
    (hok : ∀ k, connectOk k = true) (m : Nat) :
    ∀ s : RedisPool, s.connections_ = [] → s.minConn_ + m ≤ s.maxConn_ →
      ∃ (cs : List Conn) (t : RedisPool),
        acquireMany alloc connectOk m s = some (cs, t) ∧ cs.length = m ∧ cs.Nodup ∧
        (∀ x ∈ cs, x ∉ s.live) ∧ t.connections_ = [] ∧ t.minConn_ = s.minConn_ + m ∧
        t.maxConn_ = s.maxConn_ := by
  induction m with
  | zero =>
    intro s hc _
    exact ⟨[], s, by simp [acquireMany], rfl, List.nodup_nil, by simp, hc, by simp, rfl⟩
  | succ m ih =>
    intro s hc hle
    have hroom : s.minConn_ < s.maxConn_ := by push_cast at hle; omega
    obtain ⟨cs, t, h1, h2, h3, h4, h5, h6, h7⟩ := ih
      { s with connections_ := [], minConn_ := s.minConn_ + 1,
               constructed := s.constructed + 1,
               live := alloc.addr s.constructed s.live :: s.live }
      rfl (by simp only; push_cast at hle ⊢; omega)
    refine ⟨alloc.addr s.constructed s.live :: cs, t, ?_, by simp [h2], ?_, ?_, h5, ?_, h7⟩
    · rw [acquireMany, getConnection_grow alloc connectOk s hc hroom (hok _)]
      simp only
      rw [h1]
    · rw [List.nodup_cons]
      exact ⟨fun hm => h4 _ hm (List.mem_cons_self _ _), h3⟩
    · intro x hx
      rcases List.mem_cons.1 hx with rfl | hx
      · exact alloc.fresh _ _
      · exact fun hm => h4 x hx (List.mem_cons_of_mem _ hm)
    · rw [h6]; push_cast; omega

/-- C9: on a pool constructed with `minConn = 0` and `maxConn = n` against a server whose every
`connect()` succeeds, after `init()` the first `n` calls of `getConnection` without a release in
between all return, the `n` connections are pairwise distinct, and the next call does not return
but waits on the condition variable; once a connection is released the call returns it. -/
theorem growth_then_block (n : Nat) (alloc : Allocator) :
    ∃ (cs : List Conn) (t : RedisPool),
      acquireMany alloc (fun _ => true) n (init alloc (fun _ => true) (RedisPool.ctor 0 n)) =
        some (cs, t) ∧
      cs.length = n ∧ cs.Nodup ∧
      getConnection alloc (fun _ => true) t = .waiting t ∧
      ∀ c, getConnection alloc (fun _ => true) (freeConnection t c) = .returned c t := by
  have hinit : init alloc (fun _ => true) (RedisPool.ctor 0 n) = RedisPool.ctor 0 n := by
    simp [init, RedisPool.ctor, initLoop]
  obtain ⟨cs, t, h1, h2, h3, _, h5, h6, h7⟩ :=
    acquireMany_grow alloc (fun _ => true) (fun _ => rfl) n (RedisPool.ctor 0 n) rfl
      (by simp [RedisPool.ctor])
  refine ⟨cs, t, by rw [hinit]; exact h1, h2, h3, ?_, ?_⟩
  · apply getConnection_wait _ _ _ h5
    rw [h6, h7]
    simp [RedisPool.ctor]
  · intro c
    rw [getConnection_pop alloc (fun _ => true) _ c [] (by
      rw [freeConnection_connections, h5]; simp)]
    cases t
    simp only at h5
    subst h5
    simp [freeConnection, findConn]

/-- The spec's case of C9, evaluated: `minConn = 0`, `maxConn = 3`; three calls return the
connections `1`, `2`, `3` and the fourth call waits. -/
theorem growth_then_block_three :
    acquireMany bumpAllocator (fun _ => true) 3
        (init bumpAllocator (fun _ => true) (RedisPool.ctor 0 3)) =
      some ([1, 2, 3], ⟨3, 3, [], 3, [3, 2, 1]⟩) ∧
    getConnection bumpAllocator (fun _ => true) ⟨3, 3, [], 3, [3, 2, 1]⟩ =
      .waiting ⟨3, 3, [], 3, [3, 2, 1]⟩ := by
  decide

/-! ## `hgetall` -/

theorem mapFind_append (m : StdMap) (k v key : String) :
    mapFind (m ++ [(k, v)]) key =
      match mapFind m key with
      | some w => some w
      | none => if key = k then some v else none := by
  induction m with
  | nil =>
    by_cases h : key = k
    · simp [mapFind, List.lookup, h]
    · have h2 : (key == k) = false := by simpa using h
      simp [mapFind, List.lookup, h, h2]
  | cons e m ih =>
    obtain ⟨a, b⟩ := e
    simp only [mapFind, List.cons_append, List.lookup] at ih ⊢
    cases hk : (key == a)
    · simpa using ih
    · simp

theorem mapInsert_find_same (m : StdMap) (k v : String) (h : mapFind m k = none) :
    mapFind (mapInsert m (k, v)) k = some v := by
  simp [mapInsert, h, mapFind_append]

theorem mapInsert_find_keep (m : StdMap) (kv : String × String) (key w : String)
    (h : mapFind m key = some w) : mapFind (mapInsert m kv) key = some w := by
  unfold mapInsert
  split
  · exact h
  · obtain ⟨k, v⟩ := kv
    rw [mapFind_append, h]

theorem mapInsert_find_other (m : StdMap) (kv : String × String) (key : String)
    (hne : key ≠ kv.1) : mapFind (mapInsert m kv) key = mapFind m key := by
  unfold mapInsert
  split
  · rfl
  · obtain ⟨k, v⟩ := kv
    rw [mapFind_append]
    cases mapFind m key with
    | some w => rfl
    | none => simp only [if_neg hne]

/-- Entries of the map are never overwritten by the loop. -/
theorem insertPairs_keep : ∀ (l : List redisReply) (m : StdMap) (key w : String),
    mapFind m key = some w → mapFind (insertPairs l m) key = some w
  | [], m, key, w, h => by simpa [insertPairs] using h
  | [_], m, key, w, h => by simpa [insertPairs] using h
  | f :: v :: rest, m, key, w, h => by
    rw [insertPairs]
    exact insertPairs_keep rest _ key w (mapInsert_find_keep m _ key w h)

/-- The pair at positions `2i`, `2i+1` is in the map after the loop when its field was not a key
before and is the field of no other pair. -/
theorem insertPairs_find : ∀ (l : List redisReply) (m : StdMap) (i : Nat) (f v : redisReply),
    l[2 * i]? = some f → l[2 * i + 1]? = some v → mapFind m f.str = none →
    (∀ (j : Nat) (g : redisReply), l[2 * j]? = some g → g.str = f.str → j = i) →
    mapFind (insertPairs l m) f.str = some v.str
  | [], m, i, f, v, hf, _, _, _ => by simp at hf
  | [_], m, i, f, v, _, hv, _, _ => by simp at hv
  | a :: b :: rest, m, 0, f, v, hf, hv, hm, _ => by
    simp only [Nat.mul_zero, List.getElem?_cons_zero, Option.some.injEq] at hf
    simp only [Nat.mul_zero, Nat.zero_add, List.getElem?_cons_succ, List.getElem?_cons_zero,
      Option.some.injEq] at hv
    subst hf; subst hv
    rw [insertPairs]
    exact insertPairs_keep rest _ _ _ (mapInsert_find_same m _ _ hm)
  | a :: b :: rest, m, i + 1, f, v, hf, hv, hm, huniq => by
    have hf2 : rest[2 * i]? = some f := by
      have : 2 * (i + 1) = 2 * i + 1 + 1 := by omega
      rw [this] at hf
      simpa using hf
    have hv2 : rest[2 * i + 1]? = some v := by
      have : 2 * (i + 1) + 1 = 2 * i + 1 + 1 + 1 := by omega
      rw [this] at hv
      simpa using hv
    have hne : f.str ≠ a.str := by
      intro he
      have := huniq 0 a (by simp) he.symm
      omega
    rw [insertPairs]
    apply insertPairs_find rest _ i f v hf2 hv2
    · rw [mapInsert_find_other m _ _ hne]; exact hm
    · intro j g hg hgs
      have hj : (a :: b :: rest)[2 * (j + 1)]? = some g := by
        have : 2 * (j + 1) = 2 * j + 1 + 1 := by omega
        rw [this]
        simpa using hg
      have := huniq (j + 1) g hj hgs
      omega

/-- Every key of the map after the loop was a key before or is the payload of an even-indexed
element that has a successor. -/
theorem insertPairs_keys : ∀ (l : List redisReply) (m : StdMap) (key : String),
    mapFind (insertPairs l m) key ≠ none →
    mapFind m key ≠ none ∨ ∃ (i : Nat) (f : redisReply),
      l[2 * i]? = some f ∧ 2 * i + 1 < l.length ∧ key = f.str
  | [], m, key, h => by left; simpa [insertPairs] using h
  | [_], m, key, h => by left; simpa [insertPairs] using h
  | a :: b :: rest, m, key, h => by
    rw [insertPairs] at h
    rcases insertPairs_keys rest _ key h with h1 | ⟨i, f, h1, h2, h3⟩
    · by_cases hk : key = a.str
      · right
        exact ⟨0, a, by simp, by simp, hk⟩
      · left
        rw [mapInsert_find_other m _ key hk] at h1
        exact h1
    · right
      refine ⟨i + 1, f, ?_, ?_, h3⟩
      · have : 2 * (i + 1) = 2 * i + 1 + 1 := by omega
        rw [this]
        simpa using h1
      · simp only [List.length_cons]
        omega

/-- C10: for an array reply to `HGETALL`, `hgetall` returns `true`; when the number of elements
is even, each pair `element[2i]`, `element[2i+1]` whose field was not in the map before and is
the field of no other pair is in the map afterwards, and every key of the map afterwards was a
key before or is an even-indexed element; when the number of elements is odd the map is left
as it was. -/
theorem hgetall_decodes_pairs (r : redisReply) (result : StdMap)
    (harr : r.type = REDIS_REPLY_ARRAY) :
    ∃ result', hgetall (some r) result = some (.ok (true, result')) ∧
      (r.elements % 2 = 0 →
        (∀ (i : Nat) (f v : redisReply),
          r.element[2 * i]? = some f → r.element[2 * i + 1]? = some v →
          mapFind result f.str = none →
          (∀ (j : Nat) (g : redisReply), r.element[2 * j]? = some g → g.str = f.str → j = i) →
          mapFind result' f.str = some v.str) ∧
        (∀ key : String, mapFind result' key ≠ none →
          mapFind result key ≠ none ∨
            ∃ (i : Nat) (f : redisReply),
              r.element[2 * i]? = some f ∧ 2 * i < r.elements ∧ key = f.str)) ∧
      (r.elements % 2 = 1 → result' = result) := by
  have hcheck : checkReply (some r) = true := by
    simp [checkReply, harr, REDIS_REPLY_ARRAY, REDIS_REPLY_STRING]
  by_cases hev : r.elements % 2 = 0
  · refine ⟨insertPairs r.element result, ?_, fun _ => ⟨?_, ?_⟩, fun hodd => ?_⟩
    · simp [hgetall, hcheck, harr, hev]
    · intro i f v hf hv hm huniq
      exact insertPairs_find r.element result i f v hf hv hm huniq
    · intro key hk
      rcases insertPairs_keys r.element result key hk with h | ⟨i, f, h1, h2, h3⟩
      · exact Or.inl h
      · exact Or.inr ⟨i, f, h1, by unfold redisReply.elements; omega, h3⟩
    · omega
  · refine ⟨result, ?_, fun h => absurd h hev, fun _ => rfl⟩
    simp [hgetall, hcheck, hev]

/-- Witness for C10: the reply with the fields `f1`, `f2` and an empty map. -/
theorem hgetall_decodes_pairs_witness :
    replyTwoFields.type = REDIS_REPLY_ARRAY ∧
    ∃ result', hgetall (some replyTwoFields) [] = some (.ok (true, result')) ∧
      (replyTwoFields.elements % 2 = 0 →
        (∀ (i : Nat) (f v : redisReply),
          replyTwoFields.element[2 * i]? = some f → replyTwoFields.element[2 * i + 1]? = some v →
          mapFind [] f.str = none →
          (∀ (j : Nat) (g : redisReply),
            replyTwoFields.element[2 * j]? = some g → g.str = f.str → j = i) →
          mapFind result' f.str = some v.str) ∧
        (∀ key : String, mapFind result' key ≠ none →
          mapFind [] key ≠ none ∨
            ∃ (i : Nat) (f : redisReply),
              replyTwoFields.element[2 * i]? = some f ∧ 2 * i < replyTwoFields.elements ∧
                key = f.str)) ∧
      (replyTwoFields.elements % 2 = 1 → result' = []) :=
  ⟨rfl, hgetall_decodes_pairs replyTwoFields [] rfl⟩

/-- The call of the witness of C10, evaluated, and the same call on a reply with three
elements, which leaves the map empty. -/
theorem hgetall_two_fields :
    hgetall (some replyTwoFields) [] = some (.ok (true, [("f1", "v1"), ("f2", "v2")])) ∧
    hgetall (some (.mk REDIS_REPLY_ARRAY 0 ""
      [.mk REDIS_REPLY_STRING 0 "f1" [], .mk REDIS_REPLY_STRING 0 "v1" [],
       .mk REDIS_REPLY_STRING 0 "f2" []])) [] = some (.ok (true, [])) := by
  constructor <;> rfl

end RedisClient
